import Mathlib

/-!
Verification of the alias-manager engine (`src/extension.ts` plus the helper
modules it imports) against its natural-language specification.

The embedding works over plain Lean data:
* a store file is a `List String` of lines;
* the group store (the editor's `globalState` Memento) is an association
  list `List (String × List Alias)` from group name to alias sequence;
* every command of `AliasView` becomes a pure function on these, with the
  user's already-validated input passed as an argument and `Except` for the
  abort paths.

The helper modules `./aliases`, `./utils` and `./constants` are not part of
the sources; their functions (`getAliases`, `appendAliasToStoreFile`,
`deleteAliases`, `renameAliases`, `resolveAlias`, `isSameAlias`,
`normalizeAliasesToArray`, `SYSTEM_ALIAS`) are modelled from the spec, as
marked on each definition.  All character/string work is done on `List Char`
so that every definition evaluates inside the kernel.
-/

/-- The parsed unit (spec §3): name, command text, usage frequency and
description.  `frequency` is optional in the TypeScript type (`frequency?:
number`), read back with `?? 0`; we model it as `Option Nat`. -/
structure Alias where
  aliasName : String
  command : String
  frequency : Option Nat
  description : String
deriving DecidableEq, Repr

/-- Modelled from the spec: the distinguished system-group key
(`SYSTEM_ALIAS` from `./constants`).  Its concrete value is irrelevant; it
only needs to be a fixed group name. -/
def SYSTEM_ALIAS : String := "SystemAlias"

/-- Modelled from the spec (§3 identity rule, `isSameAlias` from
`./utils`): two aliases are the same alias iff `aliasName` and `command`
both match exactly. -/
def isSameAlias (a b : Alias) : Bool :=
  a.aliasName == b.aliasName && a.command == b.command

/-- The single-quote character, kept out of string literals. -/
def squoteChar : Char := Char.ofNat 39

/-- Drop leading whitespace characters. -/
def dropWS (cs : List Char) : List Char :=
  cs.dropWhile Char.isWhitespace

/-- Trim whitespace from both ends of a character list. -/
def trimChars (cs : List Char) : List Char :=
  ((dropWS cs).reverse.dropWhile Char.isWhitespace).reverse

/-- Parse the body of a double-quoted value after the opening quote
(spec §4.1): backslash escapes the next character, the closing quote must
end the line; fails on an unbalanced quote. -/
def parseDoubleQuoted : List Char → Option (List Char)
  | [] => none
  | c :: cs =>
    if c = '"' then
      if cs.isEmpty then some [] else none
    else if c = '\\' then
      match cs with
      | [] => none
      | c2 :: cs2 => (parseDoubleQuoted cs2).map (fun l => c2 :: l)
    else
      (parseDoubleQuoted cs).map (fun l => c :: l)

/-- Parse the `<value>` part of an alias statement (spec §4.1): a
single-quoted string (no embedded single quote), a double-quoted string
(backslash escapes allowed), or an unquoted token with no embedded
whitespace; enclosing quotes are stripped. -/
def parseValue (cs : List Char) : Option (List Char) :=
  match cs with
  | [] => some []
  | c :: rest =>
    if c = squoteChar then
      match rest.dropWhile (fun ch => ch ≠ squoteChar) with
      | [q] => if q = squoteChar then some (rest.takeWhile (fun ch => ch ≠ squoteChar)) else none
      | _ => none
    else if c = '"' then
      parseDoubleQuoted rest
    else
      if cs.any Char.isWhitespace then none else some cs

/-- Modelled from the spec (§4.1 grammar, the Line Scanner / Alias
Parser): after trimming, a matching line has the form
`alias <name>=<value>` where `<name>` is a nonempty run of non-whitespace,
non-`=` characters and `<value>` follows `parseValue`.  A non-matching
string yields `none`.  A freshly parsed alias carries no frequency and an
empty description. -/
def parseAliasStatement (s : String) : Option Alias :=
  match trimChars s.data with
  | 'a' :: 'l' :: 'i' :: 'a' :: 's' :: c :: rest =>
    if c.isWhitespace then
      let body := dropWS rest
      let nameChars := body.takeWhile (fun ch => !ch.isWhitespace && ch ≠ '=')
      if nameChars.isEmpty then none
      else
        match body.dropWhile (fun ch => !ch.isWhitespace && ch ≠ '=') with
        | '=' :: valueChars =>
          (parseValue valueChars).map
            (fun cmd => ⟨String.mk nameChars, String.mk cmd, none, ""⟩)
        | _ => none
    else none
  | _ => none

/-- Modelled from the spec (§4.3, `resolveAlias` from `./utils`): the same
grammar applied to one user-typed statement; on success the alias has
frequency 0 and empty description, a non-match is the `InvalidFormat`
condition (`none`). -/
def resolveAlias (s : String) : Option Alias :=
  (parseAliasStatement s).map (fun a => { a with frequency := some 0 })

/-- Modelled from the spec (§4.1, `getAliases` from `./aliases`): scan the
file and yield the parsed alias of every matching line, in file order;
non-matching lines are skipped. -/
def getAliases (file : List String) : List Alias :=
  file.filterMap parseAliasStatement

/-- Modelled from the spec (§4.2 `append`, `appendAliasToStoreFile` from
`./aliases`): append one new `alias ...` line; the caller passes the text
after the `alias ` keyword, as in `appendAliasToStoreFile(storePath.path,
alias)` of `addAlias`. -/
def appendAliasToStoreFile (file : List String) (text : String) : List String :=
  file ++ [String.mk (('a' :: 'l' :: 'i' :: 'a' :: 's' :: ' ' :: []) ++ text.data)]

/-- Whether a line parses to an alias with the same identity as `a`. -/
def lineMatches (a : Alias) (line : String) : Bool :=
  match parseAliasStatement line with
  | some b => isSameAlias a b
  | none => false

/-- Modelled from the spec (§4.2 `deleteMatching`, `deleteAliases` from
`./aliases`): with a target, remove every line whose parsed alias has the
target's identity; without one (the bulk clear of `deleteAllAlias`),
remove every alias line.  All other lines are kept unchanged, in order. -/
def deleteAliases (file : List String) (target : Option Alias) : List String :=
  match target with
  | some a => file.filter (fun l => !lineMatches a l)
  | none => file.filter (fun l => (parseAliasStatement l).isNone)

/-- Errors surfaced at the command boundary (spec §7). -/
inductive CmdError where
  | invalidFormat
  | duplicateAlias
  | aliasNotFound
  | duplicateGroup
  | noEligibleGroup
  | emptyInput
deriving DecidableEq, Repr

/-- Modelled from the spec (§4.2 `replaceOne`): replace the text of the
first line whose parsed alias has identity `old` with `stmt`, preserving
its position; `AliasNotFound` when no line matches. -/
def replaceOne (file : List String) (old : Alias) (stmt : String) : Except CmdError (List String) :=
  match file with
  | [] => Except.error CmdError.aliasNotFound
  | l :: ls =>
    if lineMatches old l then Except.ok (stmt :: ls)
    else (replaceOne ls old stmt).map (fun r => l :: r)

/-- The raw statement written for a renamed alias: `alias name='command'`. -/
def renameStatement (name command : String) : String :=
  String.mk (('a' :: 'l' :: 'i' :: 'a' :: 's' :: ' ' :: []) ++ name.data
    ++ ('=' :: squoteChar :: []) ++ command.data ++ [squoteChar])

/-- Modelled from the spec (§4.2, `renameAliases` from `./aliases`):
rewrite the line holding the old identity to the new
`alias name='command'` statement via `replaceOne`. -/
def renameAliases (file : List String) (old next : Alias) : Except CmdError (List String) :=
  replaceOne file old (renameStatement next.aliasName next.command)

/-- The group store (spec §4.5 / §6): the editor's `globalState` Memento,
an ordered key→sequence-of-Alias mapping.  Keys are unique in the real
Memento; the embedding is an association list read through `List.lookup`. -/
abbrev GroupStore := List (String × List Alias)

/-- The Memento's `keys()`. -/
def mKeys (gs : GroupStore) : List String :=
  gs.map Prod.fst

/-- The Memento's `get(key)`: the value stored under the first entry with
the key. -/
def mGet : GroupStore → String → Option (List Alias)
  | [], _ => none
  | p :: ps, g => if p.1 = g then some p.2 else mGet ps g

/-- Modelled from the spec (`normalizeAliasesToArray` from `./utils`, spec
§4.5 `getGroup`): an absent or empty stored value reads as the empty
sequence. -/
def normalizeAliasesToArray (v : Option (List Alias)) : List Alias :=
  v.getD []

/-- The Memento's `update(key, value)` with a present value: replace the
value of an existing key in place, otherwise add the key at the end. -/
def mUpdate (gs : GroupStore) (g : String) (v : List Alias) : GroupStore :=
  if (mGet gs g).isSome then
    gs.map (fun p => if p.1 = g then (g, v) else p)
  else gs ++ [(g, v)]

/-- The Memento's `update(key, undefined)`: the key is removed. -/
def mRemove : GroupStore → String → GroupStore
  | [], _ => []
  | p :: ps, g => if p.1 = g then mRemove ps g else p :: mRemove ps g

/-- Read one group's sequence, absent keys reading as empty. -/
def getGroup (gs : GroupStore) (g : String) : List Alias :=
  normalizeAliasesToArray (mGet gs g)

/-- Replace the first element satisfying `p` by its image under `f`; the
list is unchanged when no element satisfies `p`.  This is the
`find`-then-mutate loop body shared by `setDescription`,
`renameAliasName`, `renameAliasCommand` and `runAlias` in
`src/extension.ts`. -/
def updFirst (p : α → Bool) (f : α → α) : List α → List α
  | [] => []
  | x :: xs => if p x then f x :: xs else x :: updFirst p f xs

/-- The cross-group propagation loop of `src/extension.ts` (lines 152-160,
285-293, 325-333): for every key of the store, find the first alias with
the pre-edit identity `old` and apply `f` to it; groups without a match
are written back unchanged (the code skips the write, which is the same
store). -/
def propagateEdit (old : Alias) (f : Alias → Alias) (gs : GroupStore) : GroupStore :=
  gs.map (fun pr => (pr.1, updFirst (fun a => isSameAlias old a) f pr.2))

/-- `AliasView.setDescription` (extension.ts 137-163), group-store part:
set the description of the first matching alias in every group. -/
def setDescription (gs : GroupStore) (old : Alias) (desc : String) : GroupStore :=
  propagateEdit old (fun a => { a with description := desc }) gs

/-- `AliasView.renameAliasName` (extension.ts 284-293), group-store part:
rename the first matching alias in every group. -/
def renameAliasNameGroups (gs : GroupStore) (old : Alias) (newName : String) : GroupStore :=
  propagateEdit old (fun a => { a with aliasName := newName }) gs

/-- `AliasView.renameAliasCommand` (extension.ts 324-333), group-store
part: rewrite the command of the first matching alias in every group. -/
def renameAliasCommandGroups (gs : GroupStore) (old : Alias) (newCommand : String) : GroupStore :=
  propagateEdit old (fun a => { a with command := newCommand }) gs

/-- `AliasView.addAlias` (extension.ts 165-207): validate the typed text,
resolve it, abort on a duplicate name among the file's parsed aliases,
otherwise append the statement to the store file and push the new alias
onto the system group. -/
def addAlias (file : List String) (gs : GroupStore) (text : String) :
    Except CmdError (List String × GroupStore) :=
  if text.data.isEmpty then Except.error CmdError.emptyInput
  else
    match resolveAlias (String.mk (('a' :: 'l' :: 'i' :: 'a' :: 's' :: ' ' :: []) ++ text.data)) with
    | none => Except.error CmdError.invalidFormat
    | some resolved =>
      if resolved.aliasName ∈ (getAliases file).map Alias.aliasName then
        Except.error CmdError.duplicateAlias
      else
        let file2 := appendAliasToStoreFile file text
        let aliases := normalizeAliasesToArray (mGet gs SYSTEM_ALIAS)
        let gs2 := mUpdate gs SYSTEM_ALIAS
          (aliases ++ [{ resolved with frequency := some 0, description := "" }])
        Except.ok (file2, gs2)

/-- `AliasView.deleteAlias` (extension.ts 237-257): delete the matching
lines from the file and filter the identity out of every group. -/
def deleteAlias (file : List String) (gs : GroupStore) (data : Alias) :
    List String × GroupStore :=
  (deleteAliases file (some data),
   gs.map (fun pr => (pr.1, pr.2.filter (fun a => !isSameAlias data a))))

/-- `AliasView.deleteAllAlias` (extension.ts 209-235), after the user
confirms: when the file holds no alias lines nothing is touched; otherwise
every alias line is removed from the file and every group key is set to
the empty sequence. -/
def deleteAllAlias (file : List String) (gs : GroupStore) : List String × GroupStore :=
  if (getAliases file).isEmpty then (file, gs)
  else (deleteAliases file none, gs.map (fun pr => (pr.1, ([] : List Alias))))

/-- The candidate target groups of `AliasView.addToGroup` (extension.ts
401): every key except the system group and the alias's current group. -/
def addToGroupCandidates (gs : GroupStore) (curGroup : String) : List String :=
  (mKeys gs).filter (fun k => decide (k ≠ SYSTEM_ALIAS ∧ k ≠ curGroup))

/-- `AliasView.addToGroup` (extension.ts 396-421): abort when no candidate
group exists; otherwise push the alias onto the group the user selected
from the candidates. -/
def addToGroup (gs : GroupStore) (curGroup : String) (data : Alias) (selected : String) :
    Except CmdError GroupStore :=
  if (addToGroupCandidates gs curGroup).isEmpty then Except.error CmdError.noEligibleGroup
  else Except.ok (mUpdate gs selected (normalizeAliasesToArray (mGet gs selected) ++ [data]))

/-- `AliasView.removeFromCurrentGroup` (extension.ts 382-394): filter the
identity out of the invoked group only. -/
def removeFromCurrentGroup (gs : GroupStore) (group : String) (data : Alias) : GroupStore :=
  mUpdate gs group ((getGroup gs group).filter (fun a => !isSameAlias data a))

/-- `AliasView.deleteGroup` (extension.ts 423-426):
`update(group, undefined)` removes the key from the Memento. -/
def deleteGroup (gs : GroupStore) (g : String) : GroupStore :=
  mRemove gs g

/-- `AliasView.renameGroup` (extension.ts 428-455): abort on empty input
or on an existing target name; otherwise read the old group's sequence,
remove the old key and store the sequence under the new key. -/
def renameGroup (gs : GroupStore) (old newName : String) : Except CmdError GroupStore :=
  if newName.data.isEmpty then Except.error CmdError.emptyInput
  else if newName ∈ mKeys gs then Except.error CmdError.duplicateGroup
  else Except.ok (mUpdate (mRemove gs old) newName (getGroup gs old))

/-- `AliasView.addNewGroup` (extension.ts 457-482): abort on empty input
or on an existing name; otherwise create the key with an empty sequence. -/
def addNewGroup (gs : GroupStore) (g : String) : Except CmdError GroupStore :=
  if g.data.isEmpty then Except.error CmdError.emptyInput
  else if g ∈ mKeys gs then Except.error CmdError.duplicateGroup
  else Except.ok (mUpdate gs g [])

/-- The key compared by the alphabetic sort (extension.ts 491):
`aliasName.toLowerCase()` under lexicographic order, the spec's
case-insensitive lexicographic comparison. -/
def alphaKey (a : Alias) : List Char :=
  a.aliasName.data.map Char.toLower

/-- The key compared by the frequency sort (extension.ts 504):
`frequency ?? 0`. -/
def freqKey (a : Alias) : Nat :=
  a.frequency.getD 0

/-- Insert `x` after every element whose key is strictly smaller, before
the first whose key is at least `k x` — the stable position. -/
def keyInsert {β : Type} [LinearOrder β] (k : α → β) (x : α) : List α → List α
  | [] => [x]
  | y :: ys => if k y < k x then y :: keyInsert k x ys else x :: y :: ys

/-- Stable insertion sort by key: the list a stable comparator sort
(JavaScript `Array.prototype.sort`, stable since ES2019) produces for the
comparator induced by `k`. -/
def keySort {β : Type} [LinearOrder β] (k : α → β) : List α → List α
  | [] => []
  | x :: xs => keyInsert k x (keySort k xs)

/-- `AliasView.sortByAlphabet` (extension.ts 484-495): when the group is
non-empty, write back its sequence stably sorted by the lower-cased name. -/
def sortByAlphabet (gs : GroupStore) (g : String) : GroupStore :=
  let aliases := getGroup gs g
  if aliases.isEmpty then gs else mUpdate gs g (keySort alphaKey aliases)

/-- `AliasView.sortByFrequency` (extension.ts 497-508): when the group is
non-empty, write back its sequence stably sorted by ascending frequency,
a missing frequency reading as 0. -/
def sortByFrequency (gs : GroupStore) (g : String) : GroupStore :=
  let aliases := getGroup gs g
  if aliases.isEmpty then gs else mUpdate gs g (keySort freqKey aliases)

/-- One observable effect of `runAlias` (extension.ts 339-355), in
execution order: a group-store write or the terminal send. -/
inductive Event where
  | update (group : String) (aliases : List Alias)
  | terminal (cmd : String)
deriving DecidableEq, Repr

/-- `AliasView.runAlias` (extension.ts 339-355) as its ordered effect
trace: read the invoked group, and when it holds a matching alias, bump
the first match's frequency (`(frequency ?? 0) + 1`) and write that group
back; in every case the alias name is then sent to the terminal. -/
def runAlias (gs : GroupStore) (group : String) (data : Alias) : List Event :=
  let groupAliases := getGroup gs group
  if groupAliases.any (fun a => isSameAlias data a) then
    Event.update group (updFirst (fun a => isSameAlias data a)
        (fun a => { a with frequency := some (a.frequency.getD 0 + 1) }) groupAliases)
      :: Event.terminal data.aliasName :: []
  else
    [Event.terminal data.aliasName]

/-- Replay one effect on the group store. -/
def applyEvent (gs : GroupStore) (e : Event) : GroupStore :=
  match e with
  | Event.update g v => mUpdate gs g v
  | Event.terminal _ => gs

/-- Replay a trace of effects on the group store. -/
def applyEvents (gs : GroupStore) (es : List Event) : GroupStore :=
  es.foldl applyEvent gs

/-- The store write of `AliasView.getAliasTree` (extension.ts 523), run on
every tree-population request: the system group is overwritten with the
aliases freshly parsed from the store file, in file order. -/
def refreshSystemGroup (file : List String) (gs : GroupStore) : GroupStore :=
  mUpdate gs SYSTEM_ALIAS (getAliases file)

theorem mGet_mapVal (F : List Alias → List Alias) (gs : GroupStore) (g : String) :
    mGet (gs.map (fun pr => (pr.1, F pr.2))) g = (mGet gs g).map F := by
  induction gs with
  | nil => rfl
  | cons p ps ih =>
    by_cases h : p.1 = g
    · simp [mGet, h]
    · simp [mGet, h, ih]

theorem mKeys_mapVal (F : List Alias → List Alias) (gs : GroupStore) :
    mKeys (gs.map (fun pr => (pr.1, F pr.2))) = mKeys gs := by
  simp [mKeys]

theorem mGet_append_of_none (ps qs : GroupStore) (g : String) (h : mGet ps g = none) :
    mGet (ps ++ qs) g = mGet qs g := by
  induction ps with
  | nil => rfl
  | cons p ps ih =>
    by_cases hp : p.1 = g
    · simp [mGet, hp] at h
    · simp only [mGet, hp, if_false] at h
      simp only [List.cons_append, mGet, hp, if_false]
      exact ih h

theorem mGet_mapReplace_self (gs : GroupStore) (g : String) (v : List Alias)
    (h : (mGet gs g).isSome) :
    mGet (gs.map (fun p => if p.1 = g then (g, v) else p)) g = some v := by
  induction gs with
  | nil => simp [mGet] at h
  | cons p ps ih =>
    by_cases hp : p.1 = g
    · simp [mGet, hp]
    · simp only [mGet, hp, if_false] at h
      simp [mGet, hp, ih h]

theorem mGet_mapReplace_ne (gs : GroupStore) (g g' : String) (v : List Alias) (h : g' ≠ g) :
    mGet (gs.map (fun p => if p.1 = g then (g, v) else p)) g' = mGet gs g' := by
  induction gs with
  | nil => rfl
  | cons p ps ih =>
    by_cases hp : p.1 = g
    · have h1 : ¬ g = g' := fun hc => h hc.symm
      have h2 : ¬ p.1 = g' := fun hc => h (hc.symm.trans hp)
      simp only [List.map_cons, if_pos hp, mGet, if_neg h1, if_neg h2, ih]
    · by_cases hg : p.1 = g'
      · simp only [List.map_cons, if_neg hp, mGet, if_pos hg]
      · simp only [List.map_cons, if_neg hp, mGet, if_neg hg, ih]

theorem mGet_mUpdate_self (gs : GroupStore) (g : String) (v : List Alias) :
    mGet (mUpdate gs g v) g = some v := by
  unfold mUpdate
  by_cases h : (mGet gs g).isSome
  · simp only [h, if_true, mGet_mapReplace_self gs g v h]
  · have hnone : mGet gs g = none := by
      cases he : mGet gs g
      · rfl
      · rw [he] at h; simp at h
    simp [h, mGet_append_of_none gs _ g hnone, mGet]

theorem mGet_append_single_ne (gs : GroupStore) (g g' : String) (v : List Alias)
    (h : g' ≠ g) : mGet (gs ++ [(g, v)]) g' = mGet gs g' := by
  induction gs with
  | nil =>
    have h1 : ¬ g = g' := fun hc => h hc.symm
    simp [mGet, h1]
  | cons p ps ih =>
    by_cases hp : p.1 = g'
    · simp only [List.cons_append, mGet, if_pos hp]
    · simp only [List.cons_append, mGet, if_neg hp]
      exact ih

theorem mGet_mUpdate_ne (gs : GroupStore) (g g' : String) (v : List Alias) (h : g' ≠ g) :
    mGet (mUpdate gs g v) g' = mGet gs g' := by
  unfold mUpdate
  by_cases hc : (mGet gs g).isSome
  · simp only [hc, if_true, mGet_mapReplace_ne gs g g' v h]
  · rw [if_neg hc]
    exact mGet_append_single_ne gs g g' v h

theorem mKeys_mUpdate (gs : GroupStore) (g : String) (v : List Alias) :
    mKeys (mUpdate gs g v) =
      if (mGet gs g).isSome then mKeys gs else mKeys gs ++ [g] := by
  unfold mUpdate
  by_cases hc : (mGet gs g).isSome
  · simp only [hc, if_true, mKeys, List.map_map]
    refine List.map_congr_left (fun p _ => ?_)
    by_cases hp : p.1 = g
    · simp [hp]
    · simp [hp]
  · simp [hc, mKeys]

theorem mGet_mRemove_self (gs : GroupStore) (g : String) :
    mGet (mRemove gs g) g = none := by
  induction gs with
  | nil => rfl
  | cons p ps ih =>
    by_cases hp : p.1 = g
    · simpa [mRemove, hp] using ih
    · simp only [mRemove, hp, if_false, mGet, ih]

theorem mGet_mRemove_ne (gs : GroupStore) (g g' : String) (h : g' ≠ g) :
    mGet (mRemove gs g) g' = mGet gs g' := by
  induction gs with
  | nil => rfl
  | cons p ps ih =>
    by_cases hp : p.1 = g
    · have h2 : ¬ p.1 = g' := fun hc => h (hc.symm.trans hp)
      simp only [mRemove, if_pos hp, ih, mGet, if_neg h2]
    · simp only [mRemove, if_neg hp, mGet, ih]

theorem mKeys_mRemove (gs : GroupStore) (g : String) :
    mKeys (mRemove gs g) = (mKeys gs).filter (fun k => decide (k ≠ g)) := by
  induction gs with
  | nil => rfl
  | cons p ps ih =>
    by_cases hp : p.1 = g
    · have hr : mRemove (p :: ps) g = mRemove ps g := by simp [mRemove, hp]
      rw [hr, ih, show mKeys (p :: ps) = p.1 :: mKeys ps from rfl, List.filter_cons]
      simp [hp]
    · have hr : mRemove (p :: ps) g = p :: mRemove ps g := by simp [mRemove, hp]
      rw [hr, show mKeys (p :: mRemove ps g) = p.1 :: mKeys (mRemove ps g) from rfl, ih,
        show mKeys (p :: ps) = p.1 :: mKeys ps from rfl, List.filter_cons]
      simp [hp]

theorem updFirst_of_forall_not {p : α → Bool} {f : α → α} {l : List α}
    (h : ∀ a ∈ l, p a = false) : updFirst p f l = l := by
  induction l with
  | nil => rfl
  | cons x xs ih =>
    have hx := h x (List.mem_cons_self x xs)
    simp only [updFirst, hx, Bool.false_eq_true, if_false]
    rw [ih (fun a ha => h a (List.mem_cons_of_mem x ha))]

theorem updFirst_decomp {p : α → Bool} (f : α → α) {l : List α}
    (h : ∃ a ∈ l, p a = true) :
    ∃ l1 x l2, l = l1 ++ x :: l2 ∧ (∀ a ∈ l1, p a = false) ∧ p x = true ∧
      updFirst p f l = l1 ++ f x :: l2 := by
  induction l with
  | nil => simp at h
  | cons y ys ih =>
    by_cases hy : p y = true
    · exact ⟨[], y, ys, rfl, by simp, hy, by simp [updFirst, hy]⟩
    · have hys : ∃ a ∈ ys, p a = true := by
        rcases h with ⟨a, ha, hpa⟩
        rcases List.mem_cons.mp ha with rfl | ha2
        · exact absurd hpa hy
        · exact ⟨a, ha2, hpa⟩
      rcases ih hys with ⟨l1, x, l2, hl, hnot, hx, hupd⟩
      refine ⟨y :: l1, x, l2, by simp [hl], ?_, hx, ?_⟩
      · intro a ha
        rcases List.mem_cons.mp ha with rfl | ha2
        · exact Bool.eq_false_iff.mpr hy
        · exact hnot a ha2
      · simp [updFirst, hy, hupd]

theorem length_updFirst (p : α → Bool) (f : α → α) (l : List α) :
    (updFirst p f l).length = l.length := by
  induction l with
  | nil => rfl
  | cons x xs ih =>
    by_cases hx : p x = true
    · simp [updFirst, hx]
    · simp [updFirst, hx, ih]

theorem getGroup_propagateEdit (old : Alias) (f : Alias → Alias) (gs : GroupStore)
    (g : String) :
    getGroup (propagateEdit old f gs) g =
      updFirst (fun a => isSameAlias old a) f (getGroup gs g) := by
  unfold propagateEdit getGroup normalizeAliasesToArray
  rw [mGet_mapVal]
  cases mGet gs g
  · rfl
  · rfl

theorem mKeys_propagateEdit (old : Alias) (f : Alias → Alias) (gs : GroupStore) :
    mKeys (propagateEdit old f gs) = mKeys gs := by
  unfold propagateEdit
  exact mKeys_mapVal _ gs

theorem keyInsert_perm {β : Type} [LinearOrder β] (k : α → β) (x : α) (l : List α) :
    (keyInsert k x l).Perm (x :: l) := by
  induction l with
  | nil => exact List.Perm.refl _
  | cons y ys ih =>
    by_cases h : k y < k x
    · simp only [keyInsert, if_pos h]
      exact (ih.cons y).trans (List.Perm.swap x y ys)
    · simp only [keyInsert, if_neg h]
      exact List.Perm.refl _

theorem keySort_perm {β : Type} [LinearOrder β] (k : α → β) (l : List α) :
    (keySort k l).Perm l := by
  induction l with
  | nil => exact List.Perm.refl _
  | cons x xs ih =>
    exact (keyInsert_perm k x (keySort k xs)).trans (ih.cons x)

theorem mem_keyInsert {β : Type} [LinearOrder β] {k : α → β} {x z : α} {l : List α} :
    z ∈ keyInsert k x l ↔ z = x ∨ z ∈ l := by
  rw [(keyInsert_perm k x l).mem_iff]
  exact List.mem_cons

theorem keyInsert_pairwise {β : Type} [LinearOrder β] {k : α → β} {x : α} {l : List α}
    (h : l.Pairwise (fun a b => k a ≤ k b)) :
    (keyInsert k x l).Pairwise (fun a b => k a ≤ k b) := by
  induction l with
  | nil => simp [keyInsert]
  | cons y ys ih =>
    rcases List.pairwise_cons.mp h with ⟨h1, h2⟩
    by_cases hlt : k y < k x
    · simp only [keyInsert, if_pos hlt]
      refine List.pairwise_cons.mpr ⟨?_, ih h2⟩
      intro z hz
      rcases mem_keyInsert.mp hz with rfl | hz2
      · exact le_of_lt hlt
      · exact h1 z hz2
    · simp only [keyInsert, if_neg hlt]
      refine List.pairwise_cons.mpr ⟨?_, h⟩
      intro z hz
      rcases List.mem_cons.mp hz with rfl | hz2
      · exact le_of_not_lt hlt
      · exact le_trans (le_of_not_lt hlt) (h1 z hz2)

theorem keySort_pairwise {β : Type} [LinearOrder β] (k : α → β) (l : List α) :
    (keySort k l).Pairwise (fun a b => k a ≤ k b) := by
  induction l with
  | nil => simp [keySort]
  | cons x xs ih => exact keyInsert_pairwise ih

theorem keyInsert_filter_key {β : Type} [LinearOrder β] [DecidableEq β] (k : α → β) (x : α) (l : List α)
    (v : β) :
    (keyInsert k x l).filter (fun a => decide (k a = v)) =
      if k x = v then x :: l.filter (fun a => decide (k a = v))
      else l.filter (fun a => decide (k a = v)) := by
  induction l with
  | nil =>
    by_cases hx : k x = v
    · simp [keyInsert, List.filter_cons, hx]
    · simp [keyInsert, List.filter_cons, hx]
  | cons y ys ih =>
    by_cases hyx : k y < k x
    · simp only [keyInsert, if_pos hyx, List.filter_cons]
      by_cases hx : k x = v
      · have hy : ¬ k y = v := by
          intro hc
          rw [hc, ← hx] at hyx
          exact absurd hyx (lt_irrefl (k x))
        simp [hy, ih, hx]
      · by_cases hy : k y = v
        · simp [hy, ih, hx]
        · simp [hy, ih, hx]
    · simp only [keyInsert, if_neg hyx, List.filter_cons]
      by_cases hx : k x = v
      · simp [hx, List.filter_cons]
      · simp [hx, List.filter_cons]

theorem keySort_filter_key {β : Type} [LinearOrder β] [DecidableEq β] (k : α → β) (l : List α) (v : β) :
    (keySort k l).filter (fun a => decide (k a = v)) =
      l.filter (fun a => decide (k a = v)) := by
  induction l with
  | nil => rfl
  | cons x xs ih =>
    show (keyInsert k x (keySort k xs)).filter (fun a => decide (k a = v)) = _
    rw [keyInsert_filter_key, ih, List.filter_cons]
    by_cases hx : k x = v
    · simp [hx]
    · simp [hx]

theorem getGroup_mUpdate_self (gs : GroupStore) (g : String) (v : List Alias) :
    getGroup (mUpdate gs g v) g = v := by
  simp [getGroup, mGet_mUpdate_self, normalizeAliasesToArray]

theorem getGroup_mUpdate_ne (gs : GroupStore) (g g' : String) (v : List Alias)
    (h : g' ≠ g) : getGroup (mUpdate gs g v) g' = getGroup gs g' := by
  simp [getGroup, mGet_mUpdate_ne gs g g' v h]

theorem mGet_eq_none_iff (gs : GroupStore) (g : String) :
    mGet gs g = none ↔ g ∉ mKeys gs := by
  induction gs with
  | nil => simp [mGet, mKeys]
  | cons p ps ih =>
    by_cases hp : p.1 = g
    · simp [mGet, mKeys, hp]
    · rw [show mGet (p :: ps) g = mGet ps g from by simp [mGet, hp],
        show mKeys (p :: ps) = p.1 :: mKeys ps from rfl]
      simp only [List.mem_cons, not_or]
      constructor
      · intro hnone
        exact ⟨fun hc => hp hc.symm, ih.mp hnone⟩
      · intro hh
        exact ih.mpr hh.2

theorem isSome_mGet_of_getGroup_ne_nil (gs : GroupStore) (g : String)
    (h : getGroup gs g ≠ []) : (mGet gs g).isSome = true := by
  cases he : mGet gs g
  · exact absurd (by simp [getGroup, normalizeAliasesToArray, he]) h
  · rfl

theorem propagateEdit_spec (old : Alias) (f : Alias → Alias) (gs : GroupStore)
    (g : String) :
    mKeys (propagateEdit old f gs) = mKeys gs ∧
    ((∀ a ∈ getGroup gs g, isSameAlias old a = false) →
      getGroup (propagateEdit old f gs) g = getGroup gs g) ∧
    ((∃ a ∈ getGroup gs g, isSameAlias old a = true) →
      ∃ l1 x l2, getGroup gs g = l1 ++ x :: l2 ∧
        (∀ a ∈ l1, isSameAlias old a = false) ∧ isSameAlias old x = true ∧
        getGroup (propagateEdit old f gs) g = l1 ++ f x :: l2) := by
  refine ⟨mKeys_propagateEdit old f gs, ?_, ?_⟩
  · intro h
    rw [getGroup_propagateEdit, updFirst_of_forall_not h]
  · intro h
    rcases updFirst_decomp f h with ⟨l1, x, l2, hl, hnot, hx, hupd⟩
    exact ⟨l1, x, l2, hl, hnot, hx, by rw [getGroup_propagateEdit, hupd]⟩

theorem replaceOne_not_found {file : List String} (old : Alias) (stmt : String)
    (h : ∀ l ∈ file, lineMatches old l = false) :
    replaceOne file old stmt = Except.error CmdError.aliasNotFound := by
  induction file with
  | nil => rfl
  | cons l ls ih =>
    have hl := h l (List.mem_cons_self l ls)
    simp only [replaceOne, hl, Bool.false_eq_true, if_false]
    rw [ih (fun a ha => h a (List.mem_cons_of_mem l ha))]
    rfl

theorem replaceOne_decomp {file : List String} (old : Alias) (stmt : String)
    (h : ∃ l ∈ file, lineMatches old l = true) :
    ∃ l1 x l2, file = l1 ++ x :: l2 ∧ (∀ l ∈ l1, lineMatches old l = false) ∧
      lineMatches old x = true ∧
      replaceOne file old stmt = Except.ok (l1 ++ stmt :: l2) := by
  induction file with
  | nil => simp at h
  | cons y ys ih =>
    by_cases hy : lineMatches old y = true
    · exact ⟨[], y, ys, rfl, by simp, hy, by simp [replaceOne, hy]⟩
    · have hys : ∃ l ∈ ys, lineMatches old l = true := by
        rcases h with ⟨a, ha, hpa⟩
        rcases List.mem_cons.mp ha with rfl | ha2
        · exact absurd hpa hy
        · exact ⟨a, ha2, hpa⟩
      rcases ih hys with ⟨l1, x, l2, hl, hnot, hx, hrepl⟩
      refine ⟨y :: l1, x, l2, by simp [hl], ?_, hx, ?_⟩
      · intro a ha
        rcases List.mem_cons.mp ha with rfl | ha2
        · exact Bool.eq_false_iff.mpr hy
        · exact hnot a ha2
      · simp [replaceOne, hy, hrepl, Except.map]

/-- Fixture: an alias duplicated across groups. -/
def exAlias : Alias := ⟨"gs", "git status", some 2, "old"⟩

/-- Fixture: a second, distinct alias. -/
def exOther : Alias := ⟨"nv", "node -v", none, ""⟩

/-- Fixture: a store whose groups share `exAlias`. -/
def exStore : GroupStore :=
  [(SYSTEM_ALIAS, [exAlias, exOther]), ("G1", [exOther, exAlias]), ("G2", [exOther])]

/-- Fixture: a store file holding two alias lines and a comment. -/
def exFile : List String :=
  ["# shell config", "alias gs=\"git status\"", "alias nv=\"node -v\""]

/-- C2: a description change, a rename of the name, or a rename of the command,
applied with pre-edit identity `old`, updates every group of the Group Store
that contains an alias matching that identity — the first matching alias gets
the edited field, every other element and the order are preserved — while every
group without the identity is left unchanged and the key set is untouched.
The abort paths return `Except.error` carrying no store, so they commit
nothing. -/
theorem metadata_edit_propagates_to_every_group
    (gs : GroupStore) (old : Alias) (v : String) (g : String) :
    (mKeys (setDescription gs old v) = mKeys gs ∧
      ((∀ a ∈ getGroup gs g, isSameAlias old a = false) →
        getGroup (setDescription gs old v) g = getGroup gs g) ∧
      ((∃ a ∈ getGroup gs g, isSameAlias old a = true) →
        ∃ l1 x l2, getGroup gs g = l1 ++ x :: l2 ∧
          (∀ a ∈ l1, isSameAlias old a = false) ∧ isSameAlias old x = true ∧
          getGroup (setDescription gs old v) g =
            l1 ++ { x with description := v } :: l2)) ∧
    (mKeys (renameAliasNameGroups gs old v) = mKeys gs ∧
      ((∀ a ∈ getGroup gs g, isSameAlias old a = false) →
        getGroup (renameAliasNameGroups gs old v) g = getGroup gs g) ∧
      ((∃ a ∈ getGroup gs g, isSameAlias old a = true) →
        ∃ l1 x l2, getGroup gs g = l1 ++ x :: l2 ∧
          (∀ a ∈ l1, isSameAlias old a = false) ∧ isSameAlias old x = true ∧
          getGroup (renameAliasNameGroups gs old v) g =
            l1 ++ { x with aliasName := v } :: l2)) ∧
    (mKeys (renameAliasCommandGroups gs old v) = mKeys gs ∧
      ((∀ a ∈ getGroup gs g, isSameAlias old a = false) →
        getGroup (renameAliasCommandGroups gs old v) g = getGroup gs g) ∧
      ((∃ a ∈ getGroup gs g, isSameAlias old a = true) →
        ∃ l1 x l2, getGroup gs g = l1 ++ x :: l2 ∧
          (∀ a ∈ l1, isSameAlias old a = false) ∧ isSameAlias old x = true ∧
          getGroup (renameAliasCommandGroups gs old v) g =
            l1 ++ { x with command := v } :: l2)) :=
  ⟨propagateEdit_spec old _ gs g, propagateEdit_spec old _ gs g,
    propagateEdit_spec old _ gs g⟩

/-- Witness for C2: in the concrete store, group "G1" holds the identity and
its copy gets the new description while its neighbour is untouched. -/
theorem metadata_edit_propagates_to_every_group_witness :
    ∃ l1 x l2, getGroup exStore "G1" = l1 ++ x :: l2 ∧
      (∀ a ∈ l1, isSameAlias exAlias a = false) ∧ isSameAlias exAlias x = true ∧
      getGroup (setDescription exStore exAlias "new") "G1" =
        l1 ++ { x with description := "new" } :: l2 :=
  (metadata_edit_propagates_to_every_group exStore exAlias "new" "G1").1.2.2
    ⟨exAlias, by decide, by decide⟩

/-- C9: `replaceOne` rewrites exactly the first line whose parsed alias has
the requested identity, keeping its position; the lines before it (all
non-matching) and after it are unchanged in content and order, so the line
count is preserved; with no matching line it fails with `AliasNotFound`
(and, returning `Except.error`, leaves no modified file). -/
theorem replaceOne_replaces_first_matching_line
    (file : List String) (old : Alias) (stmt : String) :
    ((∀ l ∈ file, lineMatches old l = false) →
      replaceOne file old stmt = Except.error CmdError.aliasNotFound) ∧
    ((∃ l ∈ file, lineMatches old l = true) →
      ∃ l1 x l2, file = l1 ++ x :: l2 ∧ (∀ l ∈ l1, lineMatches old l = false) ∧
        lineMatches old x = true ∧
        replaceOne file old stmt = Except.ok (l1 ++ stmt :: l2)) :=
  ⟨replaceOne_not_found old stmt, replaceOne_decomp old stmt⟩

/-- Witness for C9 on the concrete file. -/
theorem replaceOne_replaces_first_matching_line_witness :
    ∃ l1 x l2, exFile = l1 ++ x :: l2 ∧ (∀ l ∈ l1, lineMatches exAlias l = false) ∧
      lineMatches exAlias x = true ∧
      replaceOne exFile exAlias "alias g=\"git status\"" =
        Except.ok (l1 ++ "alias g=\"git status\"" :: l2) :=
  (replaceOne_replaces_first_matching_line exFile exAlias
      "alias g=\"git status\"").2
    ⟨"alias gs=\"git status\"", by decide, by decide⟩

/-- C10: after a confirmed delete-all with at least one alias line in the
file, the file keeps only its non-alias lines (re-scanning yields no
aliases) and every group key — system or user-defined — is set to the empty
sequence, regardless of whether its aliases appear in the file; with zero
alias lines in the file, nothing at all is mutated, so user groups keep
whatever they hold. -/
theorem deleteAllAlias_clears_every_group_or_nothing
    (file : List String) (gs : GroupStore) :
    (getAliases file = [] → deleteAllAlias file gs = (file, gs)) ∧
    (getAliases file ≠ [] →
      getAliases (deleteAllAlias file gs).1 = [] ∧
      mKeys (deleteAllAlias file gs).2 = mKeys gs ∧
      ∀ g, getGroup (deleteAllAlias file gs).2 g = []) := by
  constructor
  · intro h
    simp [deleteAllAlias, h]
  · intro h
    have hne : (getAliases file).isEmpty = false := by
      cases he : getAliases file
      · exact absurd he h
      · rfl
    refine ⟨?_, ?_, ?_⟩
    · simp only [deleteAllAlias, hne, Bool.false_eq_true, if_false]
      simp only [deleteAliases, getAliases]
      rw [List.filterMap_eq_nil_iff]
      intro l hl
      have := (List.mem_filter.mp hl).2
      exact Option.isNone_iff_eq_none.mp this
    · simp only [deleteAllAlias, hne, Bool.false_eq_true, if_false]
      exact mKeys_mapVal (fun _ => ([] : List Alias)) gs
    · intro g
      simp only [deleteAllAlias, hne, Bool.false_eq_true, if_false]
      simp only [getGroup, normalizeAliasesToArray]
      have hm := mGet_mapVal (fun _ => ([] : List Alias)) gs g
      rw [hm]
      cases mGet gs g
      · rfl
      · rfl

/-- Witness for C10 at the concrete file and store. -/
theorem deleteAllAlias_clears_every_group_or_nothing_witness :
    getAliases (deleteAllAlias exFile exStore).1 = [] ∧
    mKeys (deleteAllAlias exFile exStore).2 = mKeys exStore ∧
    ∀ g, getGroup (deleteAllAlias exFile exStore).2 g = [] :=
  (deleteAllAlias_clears_every_group_or_nothing exFile exStore).2 (by decide)

/-- C5: a new-group or rename-group request whose target name is an existing
group key is rejected with `DuplicateGroup`; the rejection returns
`Except.error`, so the Group Store is left completely unchanged.  The target
is assumed non-empty, as every group name created through these very guards
is. -/
theorem duplicate_group_name_is_rejected
    (gs : GroupStore) (old g : String) (hne : g.data.isEmpty = false)
    (hmem : g ∈ mKeys gs) :
    renameGroup gs old g = Except.error CmdError.duplicateGroup ∧
    addNewGroup gs g = Except.error CmdError.duplicateGroup := by
  constructor
  · simp [renameGroup, hne, hmem]
  · simp [addNewGroup, hne, hmem]

/-- Witness for C5 at the concrete store. -/
theorem duplicate_group_name_is_rejected_witness :
    renameGroup exStore "G2" "G1" = Except.error CmdError.duplicateGroup ∧
    addNewGroup exStore "G1" = Except.error CmdError.duplicateGroup :=
  duplicate_group_name_is_rejected exStore "G2" "G1" (by decide) (by decide)

/-- C6: delete-group removes the key from the Group Store entirely — the name
is no longer among the keys, and every other entry is untouched; rename-group
to a fresh, non-empty name succeeds, carrying the old group's sequence
unchanged to the new key, dropping the old key, and leaving every other
entry untouched. -/
theorem deleteGroup_removes_key_and_renameGroup_moves
    (gs : GroupStore) (g old newName : String) :
    (g ∉ mKeys (deleteGroup gs g)) ∧
    (∀ g', g' ≠ g → mGet (deleteGroup gs g) g' = mGet gs g') ∧
    (newName.data.isEmpty = false → old ∈ mKeys gs → newName ∉ mKeys gs →
      ∃ gs2, renameGroup gs old newName = Except.ok gs2 ∧
        getGroup gs2 newName = getGroup gs old ∧
        old ∉ mKeys gs2 ∧
        mKeys gs2 = (mKeys gs).filter (fun k => decide (k ≠ old)) ++ [newName] ∧
        ∀ g', g' ≠ old → g' ≠ newName → mGet gs2 g' = mGet gs g') := by
  refine ⟨?_, ?_, ?_⟩
  · exact (mGet_eq_none_iff (deleteGroup gs g) g).mp (mGet_mRemove_self gs g)
  · intro g' hg'
    exact mGet_mRemove_ne gs g g' hg'
  · intro hne hold hnot
    have hnotr : newName ∉ mKeys (mRemove gs old) := by
      rw [mKeys_mRemove]
      intro hc
      exact hnot (List.mem_filter.mp hc).1
    have hnoner : (mGet (mRemove gs old) newName).isSome = false := by
      rw [(mGet_eq_none_iff (mRemove gs old) newName).mpr hnotr]
      rfl
    have holdne : old ≠ newName := fun hc => hnot (hc ▸ hold)
    refine ⟨mUpdate (mRemove gs old) newName (getGroup gs old), ?_, ?_, ?_, ?_, ?_⟩
    · simp [renameGroup, hne, hnot]
    · exact getGroup_mUpdate_self _ newName _
    · rw [mKeys_mUpdate, hnoner]
      simp only [Bool.false_eq_true, if_false, List.mem_append, mKeys_mRemove]
      intro hc
      rcases hc with hc | hc
      · rcases List.mem_filter.mp hc with ⟨h1, h2⟩
        simp at h2
      · have : old = newName := by simpa using hc
        exact holdne this
    · rw [mKeys_mUpdate, hnoner]
      simp only [Bool.false_eq_true, if_false, mKeys_mRemove]
    · intro g' h1 h2
      rw [mGet_mUpdate_ne _ _ _ _ h2]
      exact mGet_mRemove_ne gs old g' h1

/-- Witness for C6: renaming "G1" to "G3" in the concrete store. -/
theorem deleteGroup_removes_key_and_renameGroup_moves_witness :
    ∃ gs2, renameGroup exStore "G1" "G3" = Except.ok gs2 ∧
      getGroup gs2 "G3" = getGroup exStore "G1" ∧
      "G1" ∉ mKeys gs2 ∧
      mKeys gs2 = (mKeys exStore).filter (fun k => decide (k ≠ "G1")) ++ ["G3"] ∧
      ∀ g', g' ≠ "G1" → g' ≠ "G3" → mGet gs2 g' = mGet exStore g' :=
  (deleteGroup_removes_key_and_renameGroup_moves exStore "G1" "G1" "G3").2.2
    (by decide) (by decide) (by decide)

/-- C7: the candidate targets of add-to-group are exactly the existing group
names minus the system group and the alias's current group; with no
candidate the command aborts with `NoEligibleGroup` (returning
`Except.error`, hence no mutation); otherwise the chosen target group gets
one copy of the alias appended and every other group is unchanged. -/
theorem addToGroup_candidates_and_append
    (gs : GroupStore) (cur : String) (data : Alias) (sel : String) :
    (∀ k, k ∈ addToGroupCandidates gs cur ↔
      (k ∈ mKeys gs ∧ k ≠ SYSTEM_ALIAS ∧ k ≠ cur)) ∧
    (addToGroupCandidates gs cur = [] →
      addToGroup gs cur data sel = Except.error CmdError.noEligibleGroup) ∧
    (addToGroupCandidates gs cur ≠ [] →
      ∃ gs2, addToGroup gs cur data sel = Except.ok gs2 ∧
        getGroup gs2 sel = getGroup gs sel ++ [data] ∧
        ∀ g, g ≠ sel → getGroup gs2 g = getGroup gs g) := by
  refine ⟨?_, ?_, ?_⟩
  · intro k
    simp [addToGroupCandidates, List.mem_filter]
  · intro h
    simp [addToGroup, h]
  · intro h
    have hne : (addToGroupCandidates gs cur).isEmpty = false := by
      cases he : addToGroupCandidates gs cur
      · exact absurd he h
      · rfl
    refine ⟨mUpdate gs sel (normalizeAliasesToArray (mGet gs sel) ++ [data]), ?_, ?_, ?_⟩
    · simp [addToGroup, hne]
    · exact getGroup_mUpdate_self gs sel _
    · intro g hg
      exact getGroup_mUpdate_ne gs sel g _ hg

/-- Witness for C7: adding `exOther` from "G2" to the eligible group "G1". -/
theorem addToGroup_candidates_and_append_witness :
    ∃ gs2, addToGroup exStore "G2" exOther "G1" = Except.ok gs2 ∧
      getGroup gs2 "G1" = getGroup exStore "G1" ++ [exOther] ∧
      ∀ g, g ≠ "G1" → getGroup gs2 g = getGroup exStore g :=
  (addToGroup_candidates_and_append exStore "G2" exOther "G1").2.2 (by decide)

/-- Fixture: two groups holding the same identity, for the run-alias claims. -/
def runStore : GroupStore := [("work", [exAlias]), ("play", [exAlias])]

/-- C1 (amended): running an alias updates the group store strictly before
the live-shell command event: the trace is zero or one writes to the invoked
group followed by the terminal send.  In the invoked group the first alias
matching the run identity has its frequency incremented by 1, a missing
frequency read as 0, all other elements unchanged; every group other than
the invoked one is left unchanged, even when it holds the same identity
(contrary to the claim's cross-group clause), and with no match in the
invoked group the store is untouched. -/
theorem runAlias_increments_first_match_in_invoked_group_only
    (gs : GroupStore) (group : String) (data : Alias) :
    (∃ us, runAlias gs group data = us ++ [Event.terminal data.aliasName] ∧
      ∀ e ∈ us, ∃ v, e = Event.update group v) ∧
    (∀ g, g ≠ group →
      getGroup (applyEvents gs (runAlias gs group data)) g = getGroup gs g) ∧
    ((∀ a ∈ getGroup gs group, isSameAlias data a = false) →
      applyEvents gs (runAlias gs group data) = gs) ∧
    ((∃ a ∈ getGroup gs group, isSameAlias data a = true) →
      ∃ l1 x l2, getGroup gs group = l1 ++ x :: l2 ∧
        (∀ a ∈ l1, isSameAlias data a = false) ∧ isSameAlias data x = true ∧
        getGroup (applyEvents gs (runAlias gs group data)) group =
          l1 ++ { x with frequency := some (x.frequency.getD 0 + 1) } :: l2) := by
  by_cases hany : (getGroup gs group).any (fun a => isSameAlias data a) = true
  · have hrun : runAlias gs group data =
        Event.update group (updFirst (fun a => isSameAlias data a)
          (fun a => { a with frequency := some (a.frequency.getD 0 + 1) })
          (getGroup gs group)) :: Event.terminal data.aliasName :: [] := by
      simp [runAlias, hany]
    refine ⟨?_, ?_, ?_, ?_⟩
    · refine ⟨[Event.update group (updFirst (fun a => isSameAlias data a)
        (fun a => { a with frequency := some (a.frequency.getD 0 + 1) })
        (getGroup gs group))], ?_, ?_⟩
      · rw [hrun]
        rfl
      · intro e he
        rw [List.mem_singleton] at he
        exact ⟨_, he⟩
    · intro g hg
      rw [hrun]
      simp only [applyEvents, List.foldl, applyEvent]
      exact getGroup_mUpdate_ne gs group g _ hg
    · intro hno
      rcases List.any_eq_true.mp hany with ⟨a, ha, hpa⟩
      rw [hno a ha] at hpa
      cases hpa
    · intro h
      rcases updFirst_decomp
          (fun a => { a with frequency := some (a.frequency.getD 0 + 1) }) h with
        ⟨l1, x, l2, hl, hnot, hx, hupd⟩
      refine ⟨l1, x, l2, hl, hnot, hx, ?_⟩
      rw [hrun]
      simp only [applyEvents, List.foldl, applyEvent]
      rw [getGroup_mUpdate_self, hupd]
  · have hfalse : (getGroup gs group).any (fun a => isSameAlias data a) = false :=
      Bool.eq_false_iff.mpr hany
    have hrun : runAlias gs group data = [Event.terminal data.aliasName] := by
      simp only [runAlias, hfalse, Bool.false_eq_true, if_false]
    refine ⟨⟨[], by rw [hrun]; exact ⟨rfl, by simp⟩⟩, ?_, ?_, ?_⟩
    · intro g hg
      rw [hrun]
      rfl
    · intro h
      rw [hrun]
      rfl
    · intro h
      rcases h with ⟨a, ha, hpa⟩
      exact absurd (List.any_eq_true.mpr ⟨a, ha, hpa⟩) hany

/-- Witness for C1 (amended): the invoked group "work" gets the bump. -/
theorem runAlias_increments_first_match_witness :
    ∃ l1 x l2, getGroup runStore "work" = l1 ++ x :: l2 ∧
      (∀ a ∈ l1, isSameAlias exAlias a = false) ∧ isSameAlias exAlias x = true ∧
      getGroup (applyEvents runStore (runAlias runStore "work" exAlias)) "work" =
        l1 ++ { x with frequency := some (x.frequency.getD 0 + 1) } :: l2 :=
  (runAlias_increments_first_match_in_invoked_group_only runStore "work"
      exAlias).2.2.2 ⟨exAlias, by decide, by decide⟩

/-- Counterexample to C1 as stated: group "play" holds the run identity, yet
after running from "work" its copy is byte-identical — its frequency was not
incremented — while the invoked group did change. -/
theorem runAlias_skips_other_groups_counterexample :
    (∃ a ∈ getGroup runStore "play", isSameAlias exAlias a = true) ∧
    getGroup (applyEvents runStore (runAlias runStore "work" exAlias)) "play" =
      getGroup runStore "play" ∧
    getGroup (applyEvents runStore (runAlias runStore "work" exAlias)) "work" ≠
      getGroup runStore "work" := by decide

/-- C3 (amended): every tree-population request overwrites the system
group's membership with the sequence freshly parsed from the store file, in
file order, leaving all other groups unchanged; the add-alias flow, when it
succeeds, appends the new statement to the store file and the resolved alias
to the system group in the same operation.  These are, however, not the only
write paths touching the system group's membership — alias deletion, for
one, also rewrites the system group's entry (see the separate
counterexample). -/
theorem refresh_and_add_write_system_group
    (file : List String) (gs : GroupStore) (text : String) :
    (getGroup (refreshSystemGroup file gs) SYSTEM_ALIAS = getAliases file) ∧
    (∀ g, g ≠ SYSTEM_ALIAS →
      getGroup (refreshSystemGroup file gs) g = getGroup gs g) ∧
    (∀ file2 gs2, addAlias file gs text = Except.ok (file2, gs2) →
      ∃ r, resolveAlias
          (String.mk (('a' :: 'l' :: 'i' :: 'a' :: 's' :: ' ' :: []) ++ text.data)) =
            some r ∧
        file2 = appendAliasToStoreFile file text ∧
        getGroup gs2 SYSTEM_ALIAS =
          getGroup gs SYSTEM_ALIAS ++
            [{ r with frequency := some 0, description := "" }] ∧
        ∀ g, g ≠ SYSTEM_ALIAS → getGroup gs2 g = getGroup gs g) := by
  refine ⟨getGroup_mUpdate_self gs SYSTEM_ALIAS _, ?_, ?_⟩
  · intro g hg
    exact getGroup_mUpdate_ne gs SYSTEM_ALIAS g _ hg
  · intro file2 gs2 hok
    by_cases hempty : text.data.isEmpty = true
    · simp [addAlias, hempty] at hok
    · have hemp2 : text.data.isEmpty = false := Bool.eq_false_iff.mpr hempty
      simp only [addAlias, hemp2, Bool.false_eq_true, if_false] at hok
      cases hres : resolveAlias
          (String.mk (('a' :: 'l' :: 'i' :: 'a' :: 's' :: ' ' :: []) ++ text.data)) with
      | none =>
        rw [hres] at hok
        cases hok
      | some r =>
        rw [hres] at hok
        dsimp only at hok
        by_cases hmem : r.aliasName ∈ (getAliases file).map Alias.aliasName
        · rw [if_pos hmem] at hok
          cases hok
        · rw [if_neg hmem] at hok
          have hpair := Except.ok.inj hok
          have hf : file2 = appendAliasToStoreFile file text :=
            (Prod.mk.injEq _ _ _ _ ▸ hpair).1.symm
          have hg : gs2 = mUpdate gs SYSTEM_ALIAS
              (normalizeAliasesToArray (mGet gs SYSTEM_ALIAS) ++
                [{ r with frequency := some 0, description := "" }]) :=
            (Prod.mk.injEq _ _ _ _ ▸ hpair).2.symm
          refine ⟨r, rfl, hf, ?_, ?_⟩
          · rw [hg, getGroup_mUpdate_self]
            rfl
          · intro g hgx
            rw [hg]
            exact getGroup_mUpdate_ne gs SYSTEM_ALIAS g _ hgx

/-- Fixture: the expected file after the witness add. -/
def addFile2 : List String := exFile ++ ["alias gh=\"git push\""]

/-- Fixture: the expected store after the witness add. -/
def addStore2 : GroupStore :=
  [(SYSTEM_ALIAS, [exAlias, exOther, ⟨"gh", "git push", some 0, ""⟩]),
   ("G1", [exOther, exAlias]), ("G2", [exOther])]

/-- Witness for C3 (amended), on the successful-add conjunct. -/
theorem refresh_and_add_write_system_group_witness :
    ∃ r, resolveAlias
        (String.mk (('a' :: 'l' :: 'i' :: 'a' :: 's' :: ' ' :: []) ++
          ("gh=\"git push\"" : String).data)) = some r ∧
      addFile2 = appendAliasToStoreFile exFile "gh=\"git push\"" ∧
      getGroup addStore2 SYSTEM_ALIAS =
        getGroup exStore SYSTEM_ALIAS ++
          [{ r with frequency := some 0, description := "" }] ∧
      ∀ g, g ≠ SYSTEM_ALIAS → getGroup addStore2 g = getGroup exStore g :=
  (refresh_and_add_write_system_group exFile exStore "gh=\"git push\"").2.2
    addFile2 addStore2 (by rfl)

/-- Counterexample to C3 as stated: deleting an alias rewrites the system
group's membership too, so the tree-refresh and the add-alias flow are not
the only write paths to it. -/
theorem deleteAlias_changes_system_group_membership :
    getGroup (deleteAlias exFile exStore exAlias).2 SYSTEM_ALIAS ≠
      getGroup exStore SYSTEM_ALIAS := by decide

/-- C4: an add-alias request whose resolved name collides with the name of
an alias parsed from the store file (the system group's source) aborts with
`DuplicateAlias`; the abort returns `Except.error`, so neither the file nor
any group is mutated. -/
theorem addAlias_duplicate_name_rejected
    (file : List String) (gs : GroupStore) (text : String) (r : Alias)
    (hres : resolveAlias
      (String.mk (('a' :: 'l' :: 'i' :: 'a' :: 's' :: ' ' :: []) ++ text.data)) =
        some r)
    (hdup : r.aliasName ∈ (getAliases file).map Alias.aliasName) :
    addAlias file gs text = Except.error CmdError.duplicateAlias := by
  by_cases hempty : text.data.isEmpty = true
  · have htext : text.data = [] := by
      cases hd : text.data
      · rfl
      · rw [hd] at hempty
        cases hempty
    rw [htext] at hres
    have : resolveAlias (String.mk ('a' :: 'l' :: 'i' :: 'a' :: 's' :: ' ' :: [])) =
        none := by decide
    rw [List.append_nil] at hres
    rw [this] at hres
    cases hres
  · have hemp2 : text.data.isEmpty = false := Bool.eq_false_iff.mpr hempty
    simp only [addAlias, hemp2, Bool.false_eq_true, if_false]
    rw [hres]
    dsimp only
    rw [if_pos hdup]

/-- Witness for C4: adding a second `gs` alias against the concrete file. -/
theorem addAlias_duplicate_name_rejected_witness :
    addAlias exFile exStore "gs=anything" = Except.error CmdError.duplicateAlias :=
  addAlias_duplicate_name_rejected exFile exStore "gs=anything"
    ⟨"gs", "anything", some 0, ""⟩ (by decide) (by decide)

theorem sortOp_spec {β : Type} [LinearOrder β] [DecidableEq β] (k : Alias → β) (gs : GroupStore)
    (g : String) (res : GroupStore)
    (hres : res = if (getGroup gs g).isEmpty then gs
      else mUpdate gs g (keySort k (getGroup gs g))) :
    (getGroup res g).Perm (getGroup gs g) ∧
    mKeys res = mKeys gs ∧
    (getGroup res g).Pairwise (fun a b => k a ≤ k b) ∧
    (∀ s, (getGroup res g).filter (fun a => decide (k a = s)) =
      (getGroup gs g).filter (fun a => decide (k a = s))) ∧
    (∀ g', g' ≠ g → getGroup res g' = getGroup gs g') := by
  by_cases hemp : (getGroup gs g).isEmpty = true
  · have hnil : getGroup gs g = [] := by
      cases he : getGroup gs g
      · rfl
      · rw [he] at hemp
        cases hemp
    rw [hres, if_pos hemp]
    refine ⟨List.Perm.refl _, rfl, ?_, fun s => rfl, fun g' _ => rfl⟩
    rw [hnil]
    exact List.Pairwise.nil
  · have hemp2 : (getGroup gs g).isEmpty = false := Bool.eq_false_iff.mpr hemp
    have hnnil : getGroup gs g ≠ [] := by
      intro hc
      rw [hc] at hemp2
      cases hemp2
    have hsome := isSome_mGet_of_getGroup_ne_nil gs g hnnil
    rw [hres, if_neg (by rw [hemp2]; exact Bool.false_ne_true)]
    refine ⟨?_, ?_, ?_, ?_, ?_⟩
    · rw [getGroup_mUpdate_self]
      exact keySort_perm k _
    · rw [mKeys_mUpdate, if_pos hsome]
    · rw [getGroup_mUpdate_self]
      exact keySort_pairwise k _
    · intro s
      rw [getGroup_mUpdate_self]
      exact keySort_filter_key k _ s
    · intro g' hg'
      exact getGroup_mUpdate_ne gs g g' _ hg'

/-- Fixture: the spec's stability example, frequencies 2, 2, 1. -/
def exB2 : Alias := ⟨"b", "cmdb", some 2, ""⟩

/-- Fixture: second element of the stability example. -/
def exA2 : Alias := ⟨"a", "cmda", some 2, ""⟩

/-- Fixture: third element of the stability example. -/
def exC1 : Alias := ⟨"c", "cmdc", some 1, ""⟩

/-- Fixture: a one-group store holding the stability example. -/
def sortStore : GroupStore := [("G", [exB2, exA2, exC1])]

/-- C8: each sort command rewrites exactly the invoked group — the result is
a permutation of its prior sequence, the key set is unchanged, and every
other group is untouched.  The alphabetic sort orders by the lower-cased
name under lexicographic order and the frequency sort ascending by
`frequency ?? 0`.  Both are stable: for every key value, the subsequence of
elements with that key is preserved verbatim, so ties keep their prior
relative order; in particular the spec's example [("b",2),("a",2),("c",1)]
sorts by frequency to [("c",1),("b",2),("a",2)] and alphabetically to
[("a",..),("b",..),("c",..)]. -/
theorem sort_commands_sort_one_group_stably (gs : GroupStore) (g : String) :
    ((getGroup (sortByAlphabet gs g) g).Perm (getGroup gs g) ∧
      mKeys (sortByAlphabet gs g) = mKeys gs ∧
      (getGroup (sortByAlphabet gs g) g).Pairwise
        (fun a b => alphaKey a ≤ alphaKey b) ∧
      (∀ s, (getGroup (sortByAlphabet gs g) g).filter
          (fun a => decide (alphaKey a = s)) =
        (getGroup gs g).filter (fun a => decide (alphaKey a = s))) ∧
      (∀ g', g' ≠ g → getGroup (sortByAlphabet gs g) g' = getGroup gs g')) ∧
    ((getGroup (sortByFrequency gs g) g).Perm (getGroup gs g) ∧
      mKeys (sortByFrequency gs g) = mKeys gs ∧
      (getGroup (sortByFrequency gs g) g).Pairwise
        (fun a b => freqKey a ≤ freqKey b) ∧
      (∀ s, (getGroup (sortByFrequency gs g) g).filter
          (fun a => decide (freqKey a = s)) =
        (getGroup gs g).filter (fun a => decide (freqKey a = s))) ∧
      (∀ g', g' ≠ g → getGroup (sortByFrequency gs g) g' = getGroup gs g')) ∧
    (getGroup (sortByFrequency sortStore "G") "G" = [exC1, exB2, exA2] ∧
      getGroup (sortByAlphabet sortStore "G") "G" = [exA2, exB2, exC1]) :=
  ⟨sortOp_spec alphaKey gs g _ rfl, sortOp_spec freqKey gs g _ rfl,
    by decide, by decide⟩

/-- Witness for C8: a group other than the sorted one is untouched. -/
theorem sort_commands_sort_one_group_stably_witness :
    getGroup (sortByFrequency sortStore "G") "H" = getGroup sortStore "H" :=
  (sort_commands_sort_one_group_stably sortStore "G").2.1.2.2.2.2 "H" (by decide)
